import Mathlib

/-!
Verification development for the Ghost streaming-parser engine
(GhostStreamingParser): a shallow embedding, over lists of characters, of
the stream buffer, the change extractor, the completion detector, the
match-strategy cascade, the edit applier and the diff translation loop,
together with theorems about them.  Text is modelled as List Char; the
JavaScript -1 "not found" sentinel is modelled as Option.none.
-/

set_option maxRecDepth 4000

/-- The character class of the JavaScript regular-expression token \s and of
String.prototype.trim: space, tab, line feed, carriage return, vertical tab,
form feed and the Unicode space characters. -/
def isJsSpace (c : Char) : Bool :=
  c = ' ' || c = '\t' || c = '\n' || c = '\r' || c.val = 11 || c.val = 12 ||
  c.val = 0xa0 || c.val = 0x1680 || (0x2000 ≤ c.val && c.val ≤ 0x200a) ||
  c.val = 0x2028 || c.val = 0x2029 || c.val = 0x202f || c.val = 0x205f ||
  c.val = 0x3000 || c.val = 0xfeff

/-- Whether the pattern (first argument) begins the text (second argument). -/
def isPre : List Char → List Char → Bool
  | [], _ => true
  | _ :: _, [] => false
  | p :: ps, x :: xs => p = x && isPre ps xs

/-- Remove the pattern from the front of the text, or fail. -/
def stripPre : List Char → List Char → Option (List Char)
  | [], xs => some xs
  | _ :: _, [] => none
  | p :: ps, x :: xs => if p = x then stripPre ps xs else none

/-- Whether the pattern occurs as a contiguous substring of the text. -/
def hasSub (p : List Char) : List Char → Bool
  | [] => isPre p []
  | x :: xs => isPre p (x :: xs) || hasSub p xs

/-- Index of the first occurrence of the pattern in the text: the model of
JavaScript String.prototype.indexOf, with none for -1. -/
def indexOfSub : List Char → List Char → Option Nat
  | xs, p =>
    if isPre p xs then some 0
    else match xs with
      | [] => none
      | _ :: t => (indexOfSub t p).map (· + 1)

/-- Number of (possibly overlapping) occurrences of the pattern in the text. -/
def countSub (p : List Char) : List Char → Nat
  | [] => 0
  | x :: xs => (if isPre p (x :: xs) then 1 else 0) + countSub p xs

/-- Whether the text ends with the suffix. -/
def endsWithL (suf xs : List Char) : Bool := isPre suf.reverse xs.reverse

/-- Drop leading \s characters: the deterministic reading of a greedy \s*
that is followed by a literal starting with a non-space character. -/
def skipWs : List Char → List Char
  | [] => []
  | c :: cs => if isJsSpace c then skipWs cs else c :: cs

/-- All characters of the text are \s characters. -/
def allWs (xs : List Char) : Bool := xs.all isJsSpace

/-- The head of the text, if any, is not a \s character. -/
def nwHead : List Char → Prop
  | [] => True
  | c :: _ => isJsSpace c = false

/-- String.prototype.trim. -/
def trimJs (xs : List Char) : List Char :=
  ((xs.dropWhile isJsSpace).reverse.dropWhile isJsSpace).reverse

/-- String.prototype.trimEnd. -/
def trimEndJs (xs : List Char) : List Char :=
  (xs.reverse.dropWhile isJsSpace).reverse

/-- The literal <change>. -/
def chOpen : List Char := ['<', 'c', 'h', 'a', 'n', 'g', 'e', '>']

/-- The tag name change (used by the completion detector's open-tag test). -/
def changeName : List Char := ['c', 'h', 'a', 'n', 'g', 'e']

/-- The literal <change without its closing bracket. -/
def chOpenPart : List Char := ['<', 'c', 'h', 'a', 'n', 'g', 'e']

/-- The literal </change>. -/
def chCloseT : List Char := ['<', '/', 'c', 'h', 'a', 'n', 'g', 'e', '>']

/-- The literal </change without its closing bracket. -/
def chClosePart : List Char := ['<', '/', 'c', 'h', 'a', 'n', 'g', 'e']

/-- The literal <search>. -/
def seOpen : List Char := ['<', 's', 'e', 'a', 'r', 'c', 'h', '>']

/-- The tag name search. -/
def searchName : List Char := ['s', 'e', 'a', 'r', 'c', 'h']

/-- The literal </search>. -/
def seCloseT : List Char := ['<', '/', 's', 'e', 'a', 'r', 'c', 'h', '>']

/-- The literal <replace>. -/
def reOpen : List Char := ['<', 'r', 'e', 'p', 'l', 'a', 'c', 'e', '>']

/-- The tag name replace. -/
def replaceName : List Char := ['r', 'e', 'p', 'l', 'a', 'c', 'e']

/-- The literal </replace>. -/
def reCloseT : List Char := ['<', '/', 'r', 'e', 'p', 'l', 'a', 'c', 'e', '>']

/-- The literal <![CDATA[. -/
def cdOpen : List Char := ['<', '!', '[', 'C', 'D', 'A', 'T', 'A', '[']

/-- The literal ]]>. -/
def cdClose : List Char := [']', ']', '>']

/-- The cursor-position marker CURSOR_MARKER of GhostStreamingParser.ts. -/
def cursorMarker : List Char :=
  ['<', '<', '<', 'A', 'U', 'T', 'O', 'C', 'O', 'M', 'P', 'L', 'E', 'T', 'E',
   '_', 'H', 'E', 'R', 'E', '>', '>', '>']

/-- One parsed change directive: the two raw CDATA payloads. -/
structure ParsedChange where
  search : List Char
  replace : List Char
deriving DecidableEq, Repr

/-- Fuel-driven worker for String.prototype.replaceAll with the cursor marker
and an empty replacement: remove every (left-to-right, non-overlapping)
occurrence of the marker. -/
def stripCursorF : Nat → List Char → List Char
  | 0, cs => cs
  | _ + 1, [] => []
  | fuel + 1, c :: cs =>
    match stripPre cursorMarker (c :: cs) with
    | some rest => stripCursorF fuel rest
    | none => c :: stripCursorF fuel cs

/-- replaceAll(CURSOR_MARKER, "") on the text. -/
def stripC (cs : List Char) : List Char := stripCursorF cs.length cs

/-- The lazy scan for the replace capture: find the shortest prefix of the
text after which ]]>, optional whitespace, </replace>, optional whitespace
and </change> all match, exactly as the backtracking lazy quantifier does
(a candidate ]]> after which the remaining pattern fails is swallowed into
the capture and the scan continues).  Returns the capture and the
remainder after </change>. -/
def scanReplClose : List Char → Option (List Char × List Char)
  | [] => none
  | c :: cs =>
    match (stripPre cdClose (c :: cs)).bind fun q =>
        (stripPre reCloseT (skipWs q)).bind fun q2 =>
        stripPre chCloseT (skipWs q2) with
    | some rest => some ([], rest)
    | none =>
      match scanReplClose cs with
      | some (content, rest) => some (c :: content, rest)
      | none => none

/-- The lazy scan for the search capture: find the shortest prefix of the
text after which ]]>, optional whitespace, </search>, optional whitespace,
<replace>, optional whitespace, <![CDATA[ and then a successful replace
scan all match; a candidate close after which any of that fails is
swallowed into the capture, exactly as the backtracking lazy quantifier
does.  Returns the search capture, the replace capture and the remainder
after </change>. -/
def scanSearchClose : List Char → Option (List Char × List Char × List Char)
  | [] => none
  | c :: cs =>
    match (stripPre cdClose (c :: cs)).bind fun q =>
        (stripPre seCloseT (skipWs q)).bind fun q2 =>
        (stripPre reOpen (skipWs q2)).bind fun q3 =>
        (stripPre cdOpen (skipWs q3)).bind fun q4 =>
        scanReplClose q4 with
    | some res => some ([], res.1, res.2)
    | none =>
      match scanSearchClose cs with
      | some (content, res) => some (c :: content, res)
      | none => none

/-- Attempt the change-block pattern of extractCompletedChanges at the very
start of the text:
<change>\s*<search>\s*<!\[CDATA\[ lazy \]\]>\s*</search>\s*<replace>\s*
<!\[CDATA\[ lazy \]\]>\s*</replace>\s*</change>.
On success return the two raw captures and the remainder after the match. -/
def matchChangeAt (xs : List Char) : Option (ParsedChange × List Char) :=
  (stripPre chOpen xs).bind fun r1 =>
  (stripPre seOpen (skipWs r1)).bind fun r2 =>
  (stripPre cdOpen (skipWs r2)).bind fun r3 =>
  (scanSearchClose r3).map fun res => (⟨res.1, res.2.1⟩, res.2.2)

/-- Leftmost match of the change-block pattern: try every start position in
order, as a JavaScript global regular expression does. -/
def findMatch : List Char → Option (ParsedChange × List Char)
  | [] => none
  | c :: cs =>
    match matchChangeAt (c :: cs) with
    | some r => some r
    | none => findMatch cs

/-- Fuel-driven extraction loop of extractCompletedChanges: repeatedly find
the next change block after the previous one, strip the cursor marker from
both captures, and report the end position of the last match (the amount by
which lastProcessedIndex advances). -/
def extractAllF : Nat → List Char → List ParsedChange × Nat
  | 0, _ => ([], 0)
  | fuel + 1, cs =>
    match findMatch cs with
    | none => ([], 0)
    | some (pc, rest) =>
      let n := cs.length - rest.length
      let (ps, m) := extractAllF fuel rest
      (⟨stripC pc.search, stripC pc.replace⟩ :: ps, n + m)

/-- extractCompletedChanges run over the unprocessed suffix of the buffer:
the newly completed changes and the advance of lastProcessedIndex. -/
def extractCompleted (suffix : List Char) : List ParsedChange × Nat :=
  extractAllF (suffix.length + 1) suffix

/-- The mutable state of GhostStreamingParser: the append-only buffer, the
completed changes and the processed-offset cursor. -/
structure ParserState where
  buffer : List Char
  completedChanges : List ParsedChange
  lastProcessedIndex : Nat
deriving DecidableEq, Repr

/-- The state of a freshly initialized (or reset) engine. -/
def initState : ParserState := ⟨[], [], 0⟩

/-- processChunk's effect on the engine state: append the chunk, extract the
newly completed changes from the unprocessed suffix, and advance the
cursor past the last full match. -/
def processChunk (st : ParserState) (chunk : List Char) : ParserState :=
  let buffer := st.buffer ++ chunk
  let pr := extractCompleted (buffer.drop st.lastProcessedIndex)
  ⟨buffer, st.completedChanges ++ pr.1, st.lastProcessedIndex + pr.2⟩

/-- Issue a sequence of processChunk calls in order. -/
def runChunks (st : ParserState) : List (List Char) → ParserState
  | [] => st
  | c :: cs => runChunks (processChunk st c) cs

/-- Replace every CRLF pair by LF (the first normalization step of
normalizeWhitespace). -/
def crlfToNl : List Char → List Char
  | '\r' :: '\n' :: rest => '\n' :: crlfToNl rest
  | c :: rest => c :: crlfToNl rest
  | [] => []

/-- Replace every remaining CR by LF. -/
def crToNl (xs : List Char) : List Char :=
  xs.map (fun c => if c = '\r' then '\n' else c)

/-- Replace every tab by four spaces. -/
def expandTabs (xs : List Char) : List Char :=
  (xs.map (fun c => if c = '\t' then [' ', ' ', ' ', ' '] else [c])).flatten

/-- Split the text at LF characters (the separators are consumed). -/
def splitOnNl : List Char → List (List Char)
  | [] => [[]]
  | '\n' :: rest => [] :: splitOnNl rest
  | c :: rest =>
    match splitOnNl rest with
    | l :: ls => (c :: l) :: ls
    | [] => [[c]]

/-- Join lines with LF separators. -/
def joinNl : List (List Char) → List Char
  | [] => []
  | [l] => l
  | l :: ls => l ++ '\n' :: joinNl ls

/-- Remove trailing spaces and tabs from one line: the per-line effect of the
regular expression [ \t]+$ with the g and m flags. -/
def stripTrailSpTab (l : List Char) : List Char :=
  (l.reverse.dropWhile (fun c => c = ' ' || c = '\t')).reverse

/-- normalizeWhitespace of findBestMatch: CRLF and CR to LF, tabs to four
spaces, then trailing spaces and tabs removed from every line. -/
def normWs (xs : List Char) : List Char :=
  joinNl ((splitOnNl (expandTabs (crToNl (crlfToNl xs)))).map stripTrailSpTab)

/-- The NUL character, standing for an out-of-bounds read of a JavaScript
string (which yields undefined, equal to no character and not whitespace). -/
def nulChar : Char := Char.ofNat 0

/-- Advance an index over the text while it points at a \s character (the
inner while loop of mapNormalizedToOriginalIndex). -/
def skipWsIdxF : Nat → List Char → Nat → Nat
  | 0, _, i => i
  | fuel + 1, xs, i =>
    if i < xs.length && isJsSpace (xs.getD i nulChar) then skipWsIdxF fuel xs (i + 1)
    else i

/-- Fuel-driven worker for mapNormalizedToOriginalIndex: walk the original
and normalized texts in parallel until the normalized position reaches the
normalized match index, treating runs of whitespace as mutually
equivalent, and return the original index reached. -/
def mapNormGo : Nat → List Char → List Char → Nat → Nat → Nat → Nat
  | 0, _, _, _, oi, _ => oi
  | fuel + 1, orig, norm, nIdx, oi, np =>
    if np < nIdx && oi < orig.length then
      let oc := orig.getD oi nulChar
      let nc := norm.getD np nulChar
      if oc = nc then mapNormGo fuel orig norm nIdx (oi + 1) (np + 1)
      else if isJsSpace oc then
        let oi' := skipWsIdxF (orig.length + 1) orig (oi + 1)
        let np' := if np < norm.length && isJsSpace nc then np + 1 else np
        mapNormGo fuel orig norm nIdx oi' np'
      else mapNormGo fuel orig norm nIdx (oi + 1) (np + 1)
    else oi

/-- mapNormalizedToOriginalIndex of GhostStreamingParser.ts. -/
def mapNormIdx (orig norm : List Char) (nIdx : Nat) : Nat :=
  mapNormGo (orig.length + 1) orig norm nIdx 0 0

/-- Strategy 1 of the cascade, as the specification words it: exact
substring match. -/
def strategyExact (content searchPattern : List Char) : Option Nat :=
  indexOfSub content searchPattern

/-- Strategy 2: when the payload ends with a line break, match without the
trailing break, accepting only when the character after the matched region
is a line break or the end of the text. -/
def strategyTrailNl (content searchPattern : List Char) : Option Nat :=
  if endsWithL ['\n'] searchPattern then
    match indexOfSub content searchPattern.dropLast with
    | some i =>
      if content.length ≤ i + searchPattern.dropLast.length
          || content.getD (i + searchPattern.dropLast.length) nulChar = '\n'
      then some i else none
    | none => none
  else none

/-- Strategy 3: match the whitespace-normalized forms and map the
normalized index back to the original text. -/
def strategyNorm (content searchPattern : List Char) : Option Nat :=
  (indexOfSub (normWs content) (normWs searchPattern)).map (mapNormIdx content (normWs content))

/-- Strategy 4: exact match of the whitespace-trimmed payload against the
untouched document. -/
def strategyTrim (content searchPattern : List Char) : Option Nat :=
  indexOfSub content (trimJs searchPattern)

/-- The four strategies in order, first success winning. -/
def matchCascade (content searchPattern : List Char) : Option Nat :=
  (strategyExact content searchPattern).orElse fun _ =>
    (strategyTrailNl content searchPattern).orElse fun _ =>
      (strategyNorm content searchPattern).orElse fun _ =>
        strategyTrim content searchPattern

/-- findBestMatch of GhostStreamingParser.ts: after a guard returning
not-found when either input is empty, try the exact match, the
trailing-newline retry and the normalized match in order (their bodies are
the strategy definitions above, factored out verbatim), and finally retry
with the trimmed pattern, but only when trimming changed it. -/
def findBestMatch (content searchPattern : List Char) : Option Nat :=
  if content = [] || searchPattern = [] then none
  else
    match strategyExact content searchPattern with
    | some i => some i
    | none =>
      match strategyTrailNl content searchPattern with
      | some i => some i
      | none =>
        match strategyNorm content searchPattern with
        | some i => some i
        | none =>
          let t := trimJs searchPattern
          if t ≠ searchPattern then indexOfSub content t else none

/-- Number of consecutive LF characters at the front of the text. -/
def countLeadingNl : List Char → Nat
  | [] => 0
  | c :: rest => if c = '\n' then countLeadingNl rest + 1 else 0

/-- Number of consecutive LF characters in the document at and after the
given index (the extraNewlines count of generateSuggestions). -/
def nlRun (content : List Char) (i : Nat) : Nat := countLeadingNl (content.drop i)

/-- Number of trailing LF characters of the text. -/
def trailNlCount (xs : List Char) : Nat := countLeadingNl xs.reverse

/-- The trailing-newline adjustment of generateSuggestions: when the search
payload ends with LF and k > 0 LFs follow the matched region, keep the
replace payload if it already ends with LF followed by those k LFs, and
otherwise append LF and the k LFs to its trimEnd. -/
def adjustReplace (search replace content : List Char) (endIndex : Nat) : List Char :=
  if endsWithL ['\n'] search then
    let k := nlRun content endIndex
    if 0 < k then
      if endsWithL ('\n' :: List.replicate k '\n') replace then replace
      else trimEndJs replace ++ '\n' :: List.replicate k '\n'
    else replace
  else replace

/-- A match accepted by the edit applier: the appliedChanges entries of
generateSuggestions. -/
structure AppliedChange where
  searchContent : List Char
  replaceContent : List Char
  startIndex : Nat
  endIndex : Nat
deriving DecidableEq, Repr

/-- The overlap test of generateSuggestions between a candidate range
[i, e) and an already-accepted change. -/
def overlapsB (i e : Nat) (ex : AppliedChange) : Bool :=
  decide (i < ex.endIndex) && decide (ex.startIndex < e)

/-- One step of the acceptance loop of generateSuggestions: resolve the
directive with findBestMatch, drop it if unresolved or if its range
overlaps an already-accepted one, otherwise accept it with the adjusted
replace payload. -/
def acceptChange (content : List Char) (acc : List AppliedChange) (ch : ParsedChange) :
    List AppliedChange :=
  match findBestMatch content ch.search with
  | none => acc
  | some i =>
    let e := i + ch.search.length
    if acc.any (overlapsB i e) then acc
    else acc ++ [⟨ch.search, adjustReplace ch.search ch.replace content e, i, e⟩]

/-- The acceptance loop over all directives, in extraction order. -/
def buildApplied (content : List Char) (changes : List ParsedChange) : List AppliedChange :=
  changes.foldl (acceptChange content) []

/-- Insert into a list sorted by descending startIndex, after any entry with
a strictly larger startIndex (the stable descending sort of
generateSuggestions). -/
def insertDescStart (a : AppliedChange) : List AppliedChange → List AppliedChange
  | [] => [a]
  | b :: bs =>
    if a.startIndex > b.startIndex then a :: b :: bs else b :: insertDescStart a bs

/-- Stable sort by descending startIndex. -/
def sortDescStart : List AppliedChange → List AppliedChange
  | [] => []
  | a :: as' => insertDescStart a (sortDescStart as')

/-- Splice one accepted change into the working text: replace the region
from startIndex to endIndex by the (adjusted) replace payload. -/
def spliceOne (text : List Char) (a : AppliedChange) : List Char :=
  text.take a.startIndex ++ a.replaceContent ++ text.drop a.endIndex

/-- Apply the accepted changes, highest start offset first, to obtain the
hypothetical edited document. -/
def applyAll (content : List Char) (applied : List AppliedChange) : List Char :=
  (sortDescStart applied).foldl spliceOne content

/-- Case-insensitive variant of stripPre: the pattern is given in lower
case and each text character is lowered before comparison, as under the
regular-expression i flag. -/
def stripPreCI : List Char → List Char → Option (List Char)
  | [], xs => some xs
  | _ :: _, [] => none
  | p :: ps, x :: xs => if x.toLower = p then stripPreCI ps xs else none

/-- Case-insensitive isPre. -/
def isPreCI : List Char → List Char → Bool
  | [], _ => true
  | _ :: _, [] => false
  | p :: ps, x :: xs => x.toLower = p && isPreCI ps xs

/-- Case-insensitive hasSub. -/
def hasSubCI (p : List Char) : List Char → Bool
  | [] => isPreCI p []
  | x :: xs => isPreCI p (x :: xs) || hasSubCI p xs

/-- Skip to just after the next > character (the deterministic reading of
the greedy [^>]* followed by >). -/
def afterGt : List Char → Option (List Char)
  | [] => none
  | '>' :: rest => some rest
  | _ :: rest => afterGt rest

/-- Match an opening tag <name(?:\s[^>]*)?> at the start of the text, case
insensitively, returning the remainder after its > on success. -/
def openTagRemainder (name : List Char) (xs : List Char) : Option (List Char) :=
  match stripPreCI ('<' :: name) xs with
  | none => none
  | some r =>
    match r with
    | '>' :: rest => some rest
    | c :: rest => if isJsSpace c then afterGt rest else none
    | [] => none

/-- The dangling-tag test of isResponseComplete for one tag: does the text
contain, at any position, an opening tag with no matching closing tag
anywhere after it?  This is the test of the anchored regular expression
<name(?:\s[^>]*)?>(?:(?!closeTag)[\s\S])*$ under the i flag. -/
def danglingTag (name closeTag : List Char) : List Char → Bool
  | [] => false
  | x :: xs =>
    (match openTagRemainder name (x :: xs) with
      | some rest => !(hasSubCI closeTag rest)
      | none => false) || danglingTag name closeTag xs

/-- The lower-cased literal <![cdata[ used for the case-insensitive
dangling-CDATA test. -/
def cdOpenLower : List Char := ['<', '!', '[', 'c', 'd', 'a', 't', 'a', '[']

/-- The dangling-CDATA test of isResponseComplete: an open <![CDATA[ with
no ]]> anywhere after it. -/
def danglingCData : List Char → Bool
  | [] => false
  | x :: xs =>
    (match stripPreCI cdOpenLower (x :: xs) with
      | some rest => !(hasSub cdClose rest)
      | none => false) || danglingCData xs

/-- The lower-cased closing tags used by the case-insensitive tests. -/
def seCloseLower : List Char := ['<', '/', 's', 'e', 'a', 'r', 'c', 'h', '>']

/-- The lower-cased </replace>. -/
def reCloseLower : List Char := ['<', '/', 'r', 'e', 'p', 'l', 'a', 'c', 'e', '>']

/-- The lower-cased </change>. -/
def chCloseLower : List Char := ['<', '/', 'c', 'h', 'a', 'n', 'g', 'e', '>']

/-- Any of the four unclosed-construct conditions of isResponseComplete on
the trimmed buffer. -/
def danglingAny (t : List Char) : Bool :=
  danglingTag changeName chCloseLower t || danglingTag searchName seCloseLower t ||
  danglingTag replaceName reCloseLower t || danglingCData t

/-- isResponseComplete of GhostStreamingParser.ts: false on any dangling
construct, true on an empty trimmed buffer, and otherwise true exactly
when at least one change has been completed. -/
def isResponseComplete (buffer : List Char) (completed : List ParsedChange) : Bool :=
  let t := trimJs buffer
  if danglingAny t then false
  else if t.length = 0 then true
  else decide (0 < completed.length)

/-- The completion contract as the specification words it: not complete
whenever a dangling condition holds; complete when the trimmed buffer is
empty; otherwise complete iff at least one directive has been completed. -/
def completeSpec (buffer : List Char) (completed : List ParsedChange) : Bool :=
  let t := trimJs buffer
  !danglingAny t && (t.isEmpty || !completed.isEmpty)

/-- The kind of an emitted diff operation.  The translation loop of
generateSuggestions emits operations only for + and - lines; ctx is
present so that the absence of context operations is expressible. -/
inductive OpType where
  | plus
  | minus
  | ctx
deriving DecidableEq, Repr

/-- One operation passed to addOperation: its kind, the line field, the
oldLine and newLine fields (all zero-based in the source) and the line
content without its prefix character. -/
structure GhostOp where
  type : OpType
  line : Nat
  oldLine : Nat
  newLine : Nat
  content : List Char
deriving DecidableEq, Repr

/-- One hunk of a structured patch: one-based start lines and the prefixed
diff lines. -/
structure Hunk where
  oldStart : Nat
  newStart : Nat
  lines : List (List Char)
deriving DecidableEq, Repr

/-- Whether a prefixed diff line is an addition (its charAt(0) is +). -/
def isPlusL : List Char → Bool
  | [] => false
  | c :: _ => c = '+'

/-- Whether a prefixed diff line is a removal. -/
def isMinusL : List Char → Bool
  | [] => false
  | c :: _ => c = '-'

/-- The line content after the prefix character (substring(1)). -/
def restL : List Char → List Char
  | [] => []
  | _ :: t => t

/-- The per-hunk translation loop of generateSuggestions: walk the prefixed
lines with the running one-based oldLine/newLine counters, emit one
operation per + line (advancing only the new counter) and per - line
(advancing only the old counter), and advance both counters without
emitting for any other line.  Returns the final counters and the emitted
operations in order. -/
def translateLines : Nat → Nat → List (List Char) → Nat × Nat × List GhostOp
  | o, n, [] => (o, n, [])
  | o, n, l :: ls =>
    if isPlusL l then
      let r := translateLines o (n + 1) ls
      (r.1, r.2.1, ⟨OpType.plus, n - 1, o - 1, n - 1, restL l⟩ :: r.2.2)
    else if isMinusL l then
      let r := translateLines (o + 1) n ls
      (r.1, r.2.1, ⟨OpType.minus, o - 1, o - 1, n - 1, restL l⟩ :: r.2.2)
    else translateLines (o + 1) (n + 1) ls

/-- Fuel-driven length of a longest common subsequence of two line lists
(used only by the modelled external diff). -/
def lcsLenF : Nat → List (List Char) → List (List Char) → Nat
  | 0, _, _ => 0
  | _ + 1, [], _ => 0
  | _ + 1, _, [] => 0
  | f + 1, a :: as', b :: bs =>
    if a = b then 1 + lcsLenF f as' bs
    else max (lcsLenF f as' (b :: bs)) (lcsLenF f (a :: as') bs)

/-- Modelled from the spec: the line-level diff of the external structured
patch ("run a standard line-based diff to obtain hunks ... where each line
is prefixed context/add/remove"); the diff library itself is not part of
this repository.  Lines are compared whole; an LCS guides the choice
between emitting a removal or an addition first. -/
def diffLinesF : Nat → List (List Char) → List (List Char) → List (List Char)
  | 0, _, _ => []
  | _ + 1, [], [] => []
  | f + 1, o :: os, [] => ('-' :: o) :: diffLinesF f os []
  | f + 1, [], n :: ns => ('+' :: n) :: diffLinesF f [] ns
  | f + 1, o :: os, n :: ns =>
    if o = n then (' ' :: o) :: diffLinesF f os ns
    else if lcsLenF f (o :: os) ns ≤ lcsLenF f os (n :: ns)
    then ('-' :: o) :: diffLinesF f os (n :: ns)
    else ('+' :: n) :: diffLinesF f (o :: os) ns

/-- Modelled from the spec: the hunks of the external structured patch of
the original and edited texts ("hunks of (oldStart, newStart, lines)").
An unchanged document yields no hunks; otherwise the whole line diff forms
one hunk starting at line one of both sides. -/
def mkPatchHunks (oldL newL : List (List Char)) : List Hunk :=
  let dl := diffLinesF (oldL.length + newL.length + 1) oldL newL
  if dl.all (fun l => !(isPlusL l || isMinusL l)) then [] else [⟨1, 1, dl⟩]

/-- Insert into a list sorted by ascending line field, keeping arrival order
among equal lines. -/
def insertByLine (a : GhostOp) : List GhostOp → List GhostOp
  | [] => [a]
  | b :: bs => if a.line < b.line then a :: b :: bs else b :: insertByLine a bs

/-- Modelled from the spec: sortGroups of the suggestion store, which is
not part of this repository's files ("grouped into hunks, sorted by
position"): a stable sort of the emitted operations by line. -/
def sortByLine : List GhostOp → List GhostOp
  | [] => []
  | a :: as' => insertByLine a (sortByLine as')

/-- generateSuggestions of GhostStreamingParser.ts, with the suggestion
store modelled as the ordered list of operations passed to addOperation
for the single file: strip the cursor marker from every directive, accept
non-overlapping resolved matches, splice them from the highest start
offset down, diff the original against the edited text and translate every
hunk with the running-counter loop. -/
def ghostOps (doc : List Char) (changes : List ParsedChange) : List GhostOp :=
  if changes.isEmpty then [] else
  let filtered := changes.map fun ch => (⟨stripC ch.search, stripC ch.replace⟩ : ParsedChange)
  let applied := buildApplied doc filtered
  let modified := applyAll doc applied
  let hunks := mkPatchHunks (splitOnNl doc) (splitOnNl modified)
  sortByLine ((hunks.map fun h => (translateLines h.oldStart h.newStart h.lines).2.2).flatten)

/-- The number of top-level change blocks still open in the buffer: opening
<change occurrences not yet balanced by a full </change>. -/
def openBlocks (buf : List Char) : Nat :=
  countSub chOpenPart buf - countSub chCloseLower buf

/-- Modelled from the spec: finishStream and sanitizeXMLConservative are
absent from this repository's files (only their unit tests are present).
Per the specification, on the explicit end-of-stream signal the engine
attempts at most two conservative repairs, only when exactly one top-level
block remains open: a buffer ending with </change (missing its bracket)
gets > appended; a buffer ending with a closed </replace> but containing
no </change> at all gets </change> appended.  After a successful repair
the change extractor is re-run once over the repaired suffix; otherwise
the state is left untouched. -/
def finishStream (st : ParserState) : ParserState :=
  if openBlocks st.buffer = 1 then
    if endsWithL chClosePart st.buffer then
      let buf := st.buffer ++ ['>']
      let pr := extractCompleted (buf.drop st.lastProcessedIndex)
      ⟨buf, st.completedChanges ++ pr.1, st.lastProcessedIndex + pr.2⟩
    else if endsWithL reCloseT st.buffer && !hasSub chCloseLower st.buffer then
      let buf := st.buffer ++ chCloseLower
      let pr := extractCompleted (buf.drop st.lastProcessedIndex)
      ⟨buf, st.completedChanges ++ pr.1, st.lastProcessedIndex + pr.2⟩
    else st
  else st

theorem stripPre_eq_some {p xs r : List Char} : stripPre p xs = some r ↔ xs = p ++ r := by
  induction p generalizing xs with
  | nil => simp [stripPre]
  | cons a ps ih =>
    cases xs with
    | nil => simp [stripPre]
    | cons x xt =>
      by_cases h : a = x
      · subst h
        simp [stripPre, ih]
      · simp [stripPre, h, Ne.symm h]

theorem stripPre_pre (p r : List Char) : stripPre p (p ++ r) = some r :=
  stripPre_eq_some.mpr rfl

theorem skipWs_append_nw {w z : List Char} (hw : allWs w = true) (hz : nwHead z) :
    skipWs (w ++ z) = z := by
  induction w with
  | nil =>
    cases z with
    | nil => simp [skipWs]
    | cons c cs =>
      simp only [nwHead] at hz
      simp [skipWs, hz]
  | cons a w' ih =>
    simp only [allWs, List.all_cons, Bool.and_eq_true] at hw
    simpa [skipWs, hw.1] using ih (by simpa [allWs] using hw.2)

theorem skipWs_sound {xs z : List Char} (h : skipWs xs = z) :
    ∃ w, allWs w = true ∧ xs = w ++ z := by
  induction xs generalizing z with
  | nil => exact ⟨[], by simp [allWs], by simpa [skipWs] using h.symm⟩
  | cons c cs ih =>
    by_cases hc : isJsSpace c
    · obtain ⟨w, hw, hxs⟩ := ih (by simpa [skipWs, hc] using h)
      exact ⟨c :: w, by simp [allWs, hc]; simpa [allWs] using hw, by simp [hxs]⟩
    · refine ⟨[], by simp [allWs], ?_⟩
      simp only [skipWs, hc, if_false] at h
      simpa using h

theorem nwHead_cons_of_lt (l : List Char) : nwHead ('<' :: l) := by
  show isJsSpace '<' = false
  decide

theorem noSpan {s tail r : List Char} (hs : hasSub cdClose s = false) (hne : s ≠ []) :
    s ++ (cdClose ++ tail) ≠ cdClose ++ r := by
  intro h
  match s, hne with
  | [a], _ =>
    have h2 := congrArg (fun l => l.getD 2 ' ') h
    simp only [cdClose, List.cons_append, List.nil_append, List.getD_cons_succ,
      List.getD_cons_zero] at h2
    exact absurd h2 (by decide)
  | [a, b], _ =>
    have h2 := congrArg (fun l => l.getD 2 ' ') h
    simp only [cdClose, List.cons_append, List.nil_append, List.getD_cons_succ,
      List.getD_cons_zero] at h2
    exact absurd h2 (by decide)
  | a :: b :: c :: s3, _ =>
    simp only [cdClose, List.cons_append, List.cons.injEq] at h
    obtain ⟨ha, hb, hc, -⟩ := h
    subst ha; subst hb; subst hc
    simp [hasSub, isPre, cdClose] at hs

theorem nwHead_append {z e : List Char} (hz : nwHead z) (hne : z ≠ []) :
    nwHead (z ++ e) := by
  cases z with
  | nil => exact absurd rfl hne
  | cons c cs => exact hz

theorem stripPre_self (p : List Char) : stripPre p p = some [] := by
  simpa using stripPre_pre p []

theorem nwHead_seOpen (l : List Char) : nwHead (seOpen ++ l) := by
  show isJsSpace '<' = false
  decide

theorem nwHead_cdOpen (l : List Char) : nwHead (cdOpen ++ l) := by
  show isJsSpace '<' = false
  decide

theorem nwHead_reOpen (l : List Char) : nwHead (reOpen ++ l) := by
  show isJsSpace '<' = false
  decide

theorem nwHead_seCloseT : nwHead seCloseT := by
  show isJsSpace '<' = false
  decide

theorem nwHead_reCloseT : nwHead reCloseT := by
  show isJsSpace '<' = false
  decide

theorem nwHead_chCloseT : nwHead chCloseT := by
  show isJsSpace '<' = false
  decide

theorem seCloseT_ne_nil : seCloseT ≠ [] := by decide

theorem reCloseT_ne_nil : reCloseT ≠ [] := by decide

theorem chCloseT_ne_nil : chCloseT ≠ [] := by decide

theorem scanReplClose_exact {r w6 w7 z : List Char} (hr : hasSub cdClose r = false)
    (h6 : allWs w6 = true) (h7 : allWs w7 = true) :
    scanReplClose (r ++ (cdClose ++ (w6 ++ (reCloseT ++ (w7 ++ (chCloseT ++ z))))))
      = some (r, z) := by
  induction r with
  | nil =>
    have hstep : ((stripPre cdClose
          (']' :: ']' :: '>' :: (w6 ++ (reCloseT ++ (w7 ++ (chCloseT ++ z)))))).bind fun q =>
        (stripPre reCloseT (skipWs q)).bind fun q2 =>
        stripPre chCloseT (skipWs q2)) = some z := by
      show ((stripPre cdClose
          (cdClose ++ (w6 ++ (reCloseT ++ (w7 ++ (chCloseT ++ z)))))).bind fun q =>
        (stripPre reCloseT (skipWs q)).bind fun q2 =>
        stripPre chCloseT (skipWs q2)) = some z
      rw [stripPre_pre, Option.some_bind,
        skipWs_append_nw h6 (nwHead_append nwHead_reCloseT reCloseT_ne_nil),
        stripPre_pre, Option.some_bind,
        skipWs_append_nw h7 (nwHead_append nwHead_chCloseT chCloseT_ne_nil),
        stripPre_pre]
    simp only [List.nil_append]
    rw [show (cdClose ++ (w6 ++ (reCloseT ++ (w7 ++ (chCloseT ++ z)))))
        = ']' :: ']' :: '>' :: (w6 ++ (reCloseT ++ (w7 ++ (chCloseT ++ z)))) from rfl]
    rw [scanReplClose, hstep]
  | cons a r' ih =>
    have hr' : hasSub cdClose r' = false := by
      simp only [hasSub, Bool.or_eq_false_iff] at hr
      exact hr.2
    have hnone : stripPre cdClose
        (a :: (r' ++ (cdClose ++ (w6 ++ (reCloseT ++ (w7 ++ (chCloseT ++ z))))))) = none := by
      cases hq : stripPre cdClose
          (a :: (r' ++ (cdClose ++ (w6 ++ (reCloseT ++ (w7 ++ (chCloseT ++ z))))))) with
      | none => rfl
      | some q =>
        have heq := stripPre_eq_some.mp hq
        have hsp : (a :: r') ++ (cdClose ++ (w6 ++ (reCloseT ++ (w7 ++ (chCloseT ++ z)))))
            = cdClose ++ q := by simpa using heq
        exact absurd hsp (noSpan hr (by simp))
    have step := ih hr'
    simp only [List.cons_append, List.append_assoc] at step ⊢
    rw [scanReplClose, hnone]
    simp only [Option.none_bind]
    rw [step]

theorem scanSearchClose_exact {s r w3 w4 w5 w6 w7 z : List Char}
    (hs : hasSub cdClose s = false) (hr : hasSub cdClose r = false)
    (h3 : allWs w3 = true) (h4 : allWs w4 = true) (h5 : allWs w5 = true)
    (h6 : allWs w6 = true) (h7 : allWs w7 = true) :
    scanSearchClose (s ++ (cdClose ++ (w3 ++ (seCloseT ++ (w4 ++ (reOpen ++ (w5 ++ (cdOpen ++
        (r ++ (cdClose ++ (w6 ++ (reCloseT ++ (w7 ++ (chCloseT ++ z))))))))))))))
      = some (s, r, z) := by
  induction s with
  | nil =>
    have hstep : ((stripPre cdClose (']' :: ']' :: '>' :: (w3 ++ (seCloseT ++ (w4 ++ (reOpen ++
          (w5 ++ (cdOpen ++ (r ++ (cdClose ++ (w6 ++ (reCloseT ++ (w7 ++ (chCloseT ++
          z)))))))))))))).bind fun q =>
        (stripPre seCloseT (skipWs q)).bind fun q2 =>
        (stripPre reOpen (skipWs q2)).bind fun q3 =>
        (stripPre cdOpen (skipWs q3)).bind fun q4 =>
        scanReplClose q4) = some (r, z) := by
      show ((stripPre cdClose (cdClose ++ (w3 ++ (seCloseT ++ (w4 ++ (reOpen ++
          (w5 ++ (cdOpen ++ (r ++ (cdClose ++ (w6 ++ (reCloseT ++ (w7 ++ (chCloseT ++
          z)))))))))))))).bind fun q =>
        (stripPre seCloseT (skipWs q)).bind fun q2 =>
        (stripPre reOpen (skipWs q2)).bind fun q3 =>
        (stripPre cdOpen (skipWs q3)).bind fun q4 =>
        scanReplClose q4) = some (r, z)
      rw [stripPre_pre, Option.some_bind,
        skipWs_append_nw h3 (nwHead_append nwHead_seCloseT seCloseT_ne_nil),
        stripPre_pre, Option.some_bind,
        skipWs_append_nw h4 (nwHead_reOpen _), stripPre_pre, Option.some_bind,
        skipWs_append_nw h5 (nwHead_cdOpen _), stripPre_pre, Option.some_bind]
      exact scanReplClose_exact hr h6 h7
    simp only [List.nil_append]
    rw [show (cdClose ++ (w3 ++ (seCloseT ++ (w4 ++ (reOpen ++ (w5 ++ (cdOpen ++ (r ++
          (cdClose ++ (w6 ++ (reCloseT ++ (w7 ++ (chCloseT ++ z)))))))))))))
        = ']' :: ']' :: '>' :: (w3 ++ (seCloseT ++ (w4 ++ (reOpen ++ (w5 ++ (cdOpen ++ (r ++
          (cdClose ++ (w6 ++ (reCloseT ++ (w7 ++ (chCloseT ++ z)))))))))))) from rfl]
    rw [scanSearchClose, hstep]
  | cons a s' ih =>
    have hs' : hasSub cdClose s' = false := by
      simp only [hasSub, Bool.or_eq_false_iff] at hs
      exact hs.2
    have hnone : stripPre cdClose (a :: (s' ++ (cdClose ++ (w3 ++ (seCloseT ++ (w4 ++ (reOpen ++
        (w5 ++ (cdOpen ++ (r ++ (cdClose ++ (w6 ++ (reCloseT ++ (w7 ++ (chCloseT ++
        z))))))))))))))) = none := by
      cases hq : stripPre cdClose (a :: (s' ++ (cdClose ++ (w3 ++ (seCloseT ++ (w4 ++ (reOpen ++
          (w5 ++ (cdOpen ++ (r ++ (cdClose ++ (w6 ++ (reCloseT ++ (w7 ++ (chCloseT ++
          z))))))))))))))) with
      | none => rfl
      | some q =>
        have heq := stripPre_eq_some.mp hq
        have hsp : (a :: s') ++ (cdClose ++ (w3 ++ (seCloseT ++ (w4 ++ (reOpen ++ (w5 ++
            (cdOpen ++ (r ++ (cdClose ++ (w6 ++ (reCloseT ++ (w7 ++ (chCloseT ++ z)))))))))))))
            = cdClose ++ q := by simpa using heq
        exact absurd hsp (noSpan hs (by simp))
    have step := ih hs'
    simp only [List.cons_append, List.append_assoc] at step ⊢
    rw [scanSearchClose, hnone]
    simp only [Option.none_bind]
    rw [step]

/-- The text of one complete change directive: the grammar
<change><search><![CDATA[s]]></search><replace><![CDATA[r]]></replace></change>
with arbitrary whitespace w1..w7 between the tags. -/
def dirText (s r w1 w2 w3 w4 w5 w6 w7 : List Char) : List Char :=
  chOpen ++ (w1 ++ (seOpen ++ (w2 ++ (cdOpen ++ (s ++ (cdClose ++ (w3 ++
    (seCloseT ++ (w4 ++ (reOpen ++ (w5 ++ (cdOpen ++ (r ++ (cdClose ++ (w6 ++
    (reCloseT ++ (w7 ++ chCloseT)))))))))))))))))

theorem matchChangeAt_dir {s r w1 w2 w3 w4 w5 w6 w7 : List Char}
    (hs : hasSub cdClose s = false) (hr : hasSub cdClose r = false)
    (h1 : allWs w1 = true) (h2 : allWs w2 = true) (h3 : allWs w3 = true)
    (h4 : allWs w4 = true) (h5 : allWs w5 = true) (h6 : allWs w6 = true)
    (h7 : allWs w7 = true) :
    matchChangeAt (dirText s r w1 w2 w3 w4 w5 w6 w7) = some (⟨s, r⟩, []) := by
  unfold matchChangeAt dirText
  simp only [stripPre_pre, Option.some_bind, skipWs_append_nw, h1, h2, nwHead_seOpen,
    nwHead_cdOpen]
  rw [show (w7 ++ chCloseT) = w7 ++ (chCloseT ++ []) by simp]
  rw [scanSearchClose_exact hs hr h3 h4 h5 h6 h7]
  rfl

theorem ex_pre_trans {xs ys zs : List Char} (h1 : ∃ u, xs = u ++ ys)
    (h2 : ∃ v, ys = v ++ zs) : ∃ w, xs = w ++ zs := by
  obtain ⟨u, hu⟩ := h1
  obtain ⟨v, hv⟩ := h2
  exact ⟨u ++ v, by rw [hu, hv, List.append_assoc]⟩

theorem stripPre_suffix {p xs r : List Char} (h : stripPre p xs = some r) :
    ∃ u, xs = u ++ r :=
  ⟨p, stripPre_eq_some.mp h⟩

theorem stripPre_skipWs_suffix {p xs r : List Char} (h : stripPre p (skipWs xs) = some r) :
    ∃ u, xs = u ++ r := by
  obtain ⟨w, _, hxs⟩ := skipWs_sound (rfl : skipWs xs = skipWs xs)
  exact ex_pre_trans ⟨w, hxs⟩ (stripPre_suffix h)

theorem stripPre_skipWs_close_suffix {p xs r : List Char}
    (h : stripPre p (skipWs xs) = some r) : ∃ u, xs = u ++ (p ++ r) := by
  obtain ⟨w, _, hxs⟩ := skipWs_sound (stripPre_eq_some.mp h)
  exact ⟨w, hxs⟩

theorem scanReplClose_suffix {xs c2 rest : List Char}
    (h : scanReplClose xs = some (c2, rest)) : ∃ u, xs = u ++ (chCloseT ++ rest) := by
  induction xs generalizing c2 rest with
  | nil => simp [scanReplClose] at h
  | cons c cs ih =>
    rw [scanReplClose] at h
    cases hstep : ((stripPre cdClose (c :: cs)).bind fun q =>
        (stripPre reCloseT (skipWs q)).bind fun q2 =>
        stripPre chCloseT (skipWs q2)) with
    | some rest2 =>
      rw [hstep] at h
      simp only [Option.some.injEq, Prod.mk.injEq] at h
      obtain ⟨-, hrest⟩ := h
      subst hrest
      simp only [Option.bind_eq_some] at hstep
      obtain ⟨q, hq, q2, hq2, hq3⟩ := hstep
      exact ex_pre_trans (stripPre_suffix hq)
        (ex_pre_trans (stripPre_skipWs_suffix hq2) (stripPre_skipWs_close_suffix hq3))
    | none =>
      rw [hstep] at h
      cases h2 : scanReplClose cs with
      | none => rw [h2] at h; exact absurd h (by simp)
      | some pr =>
        obtain ⟨content', r'⟩ := pr
        rw [h2] at h
        simp only [Option.some.injEq, Prod.mk.injEq] at h
        obtain ⟨-, hrest⟩ := h
        subst hrest
        obtain ⟨u, hu⟩ := ih h2
        exact ⟨c :: u, by rw [hu]; rfl⟩

theorem scanSearchClose_suffix {xs c1 c2 rest : List Char}
    (h : scanSearchClose xs = some (c1, c2, rest)) : ∃ u, xs = u ++ (chCloseT ++ rest) := by
  induction xs generalizing c1 c2 rest with
  | nil => simp [scanSearchClose] at h
  | cons c cs ih =>
    rw [scanSearchClose] at h
    cases hstep : ((stripPre cdClose (c :: cs)).bind fun q =>
        (stripPre seCloseT (skipWs q)).bind fun q2 =>
        (stripPre reOpen (skipWs q2)).bind fun q3 =>
        (stripPre cdOpen (skipWs q3)).bind fun q4 =>
        scanReplClose q4) with
    | some res =>
      rw [hstep] at h
      simp only [Option.some.injEq, Prod.mk.injEq] at h
      obtain ⟨-, -, hrest⟩ := h
      simp only [Option.bind_eq_some] at hstep
      obtain ⟨q, hq, q2, hq2, q3, hq3, q4, hq4, hscan⟩ := hstep
      have hscan' : scanReplClose q4 = some (res.1, res.2) := hscan
      have base : ∃ u, (c :: cs) = u ++ (chCloseT ++ res.2) :=
        ex_pre_trans (stripPre_suffix hq)
          (ex_pre_trans (stripPre_skipWs_suffix hq2)
            (ex_pre_trans (stripPre_skipWs_suffix hq3)
              (ex_pre_trans (stripPre_skipWs_suffix hq4) (scanReplClose_suffix hscan'))))
      rw [← hrest]
      exact base
    | none =>
      rw [hstep] at h
      cases h2 : scanSearchClose cs with
      | none => rw [h2] at h; exact absurd h (by simp)
      | some pr =>
        obtain ⟨content', cc2, rr⟩ := pr
        rw [h2] at h
        simp only [Option.some.injEq, Prod.mk.injEq] at h
        obtain ⟨-, -, hrest⟩ := h
        obtain ⟨u, hu⟩ := ih h2
        rw [← hrest]
        exact ⟨c :: u, by rw [hu]; rfl⟩

theorem matchChangeAt_sound {xs : List Char} {pc : ParsedChange} {rest : List Char}
    (h : matchChangeAt xs = some (pc, rest)) : ∃ u, xs = u ++ (chCloseT ++ rest) := by
  unfold matchChangeAt at h
  simp only [Option.bind_eq_some, Option.map_eq_some'] at h
  obtain ⟨r1, e1, r2, e2, r3, e3, res, hscan, hres⟩ := h
  have hrest : res.2.2 = rest := congrArg Prod.snd hres
  have hscan' : scanSearchClose r3 = some (res.1, res.2.1, res.2.2) := hscan
  have base : ∃ u, xs = u ++ (chCloseT ++ res.2.2) :=
    ex_pre_trans (stripPre_suffix e1)
      (ex_pre_trans (stripPre_skipWs_suffix e2)
        (ex_pre_trans (stripPre_skipWs_suffix e3) (scanSearchClose_suffix hscan')))
  rw [← hrest]
  exact base

theorem isPre_self_append (p r : List Char) : isPre p (p ++ r) = true := by
  induction p with
  | nil => simp [isPre]
  | cons a ps ih => simp [isPre, ih]

theorem hasSub_of_mid (u p v : List Char) : hasSub p (u ++ (p ++ v)) = true := by
  induction u with
  | nil =>
    rw [List.nil_append]
    cases hp : p ++ v with
    | nil =>
      have hpnil : p = [] := by cases p <;> simp_all
      subst hpnil
      simp [hasSub, isPre]
    | cons c cs =>
      rw [hasSub, ← hp, isPre_self_append, Bool.true_or]
  | cons a u' ih =>
    rw [List.cons_append, hasSub, ih, Bool.or_true]

theorem findMatch_hasSub {xs : List Char} {pc : ParsedChange} {rest : List Char}
    (h : findMatch xs = some (pc, rest)) : hasSub chCloseT xs = true := by
  induction xs with
  | nil => simp [findMatch] at h
  | cons c cs ih =>
    rw [findMatch] at h
    cases hm : matchChangeAt (c :: cs) with
    | some res =>
      rw [hm] at h
      simp only [Option.some.injEq] at h
      subst h
      obtain ⟨u, hu⟩ := matchChangeAt_sound hm
      rw [hu]
      exact hasSub_of_mid u chCloseT rest
    | none =>
      rw [hm] at h
      have hcs := ih h
      rw [hasSub, hcs, Bool.or_true]

theorem findMatch_none_of_no_close {xs : List Char} (h : hasSub chCloseT xs = false) :
    findMatch xs = none := by
  cases hm : findMatch xs with
  | none => rfl
  | some res =>
    obtain ⟨pc, rest⟩ := res
    exact absurd (findMatch_hasSub hm) (by simp [h])

theorem extractAllF_nil : ∀ f, extractAllF f [] = ([], 0) := by
  intro f
  cases f with
  | zero => rfl
  | succ n => simp [extractAllF, findMatch]

theorem extractAllF_no_match {xs : List Char} (h : findMatch xs = none) :
    ∀ f, extractAllF f xs = ([], 0) := by
  intro f
  cases f with
  | zero => rfl
  | succ n => simp [extractAllF, h]

theorem extractCompleted_no_close {xs : List Char} (h : hasSub chCloseT xs = false) :
    extractCompleted xs = ([], 0) :=
  extractAllF_no_match (findMatch_none_of_no_close h) _

theorem isPre_append_of {p xs : List Char} (e : List Char) (h : isPre p xs = true) :
    isPre p (xs ++ e) = true := by
  induction p generalizing xs with
  | nil => simp [isPre]
  | cons a ps ih =>
    cases xs with
    | nil => simp [isPre] at h
    | cons x xt =>
      simp only [isPre, Bool.and_eq_true] at h
      simp only [List.cons_append, isPre, Bool.and_eq_true]
      exact ⟨h.1, ih h.2⟩

theorem hasSub_append_of {p xs : List Char} (e : List Char) (h : hasSub p xs = true) :
    hasSub p (xs ++ e) = true := by
  induction xs with
  | nil =>
    have hp : p = [] := by cases p <;> simp_all [hasSub, isPre]
    subst hp
    cases e <;> simp [hasSub, isPre]
  | cons x xt ih =>
    rw [hasSub] at h
    rw [List.cons_append, hasSub]
    rcases (by simpa using h : isPre p (x :: xt) = true ∨ hasSub p xt = true) with h1 | h2
    · rw [show isPre p (x :: (xt ++ e)) = true from isPre_append_of e h1, Bool.true_or]
    · rw [ih h2, Bool.or_true]

theorem no_close_of_proper {T J E : List Char} (hclose : hasSub chCloseT T.dropLast = false)
    (hJE : J ++ E = T) (hE : E ≠ []) : hasSub chCloseT J = false := by
  cases hq : hasSub chCloseT J with
  | false => rfl
  | true =>
    have h1 : hasSub chCloseT (J ++ E.dropLast) = true := hasSub_append_of _ hq
    have h2 : T.dropLast = J ++ E.dropLast := by
      rw [← hJE]
      exact List.dropLast_append_of_ne_nil J hE
    rw [h2, h1] at hclose
    exact absurd hclose (by simp)

theorem findMatch_of_matchAt {xs : List Char} {res : ParsedChange × List Char}
    (hne : xs ≠ []) (h : matchChangeAt xs = some res) : findMatch xs = some res := by
  cases xs with
  | nil => exact absurd rfl hne
  | cons c cs => rw [findMatch, h]

theorem dirText_ne_nil (s r w1 w2 w3 w4 w5 w6 w7 : List Char) :
    dirText s r w1 w2 w3 w4 w5 w6 w7 ≠ [] := by
  simp [dirText, chOpen]

theorem extractCompleted_dir {s r w1 w2 w3 w4 w5 w6 w7 : List Char}
    (hs : hasSub cdClose s = false) (hr : hasSub cdClose r = false)
    (h1 : allWs w1 = true) (h2 : allWs w2 = true) (h3 : allWs w3 = true)
    (h4 : allWs w4 = true) (h5 : allWs w5 = true) (h6 : allWs w6 = true)
    (h7 : allWs w7 = true) :
    extractCompleted (dirText s r w1 w2 w3 w4 w5 w6 w7) =
      ([⟨stripC s, stripC r⟩], (dirText s r w1 w2 w3 w4 w5 w6 w7).length) := by
  have hfm : findMatch (dirText s r w1 w2 w3 w4 w5 w6 w7) = some (⟨s, r⟩, []) :=
    findMatch_of_matchAt (dirText_ne_nil s r w1 w2 w3 w4 w5 w6 w7)
      (matchChangeAt_dir hs hr h1 h2 h3 h4 h5 h6 h7)
  unfold extractCompleted
  rw [extractAllF, hfm]
  simp [extractAllF_nil]

theorem runChunks_inv {T : List Char} {pc : ParsedChange}
    (hT : extractCompleted T = ([pc], T.length))
    (hclose : hasSub chCloseT T.dropLast = false) :
    ∀ (cs : List (List Char)) (J : List Char), J ++ cs.flatten = T →
      runChunks ⟨J, if J = T then [pc] else [], if J = T then T.length else 0⟩ cs
        = ⟨T, [pc], T.length⟩ := by
  intro cs
  induction cs with
  | nil =>
    intro J hJ
    simp only [List.flatten_nil, List.append_nil] at hJ
    subst hJ
    simp [runChunks]
  | cons c cs' ih =>
    intro J hJ
    simp only [List.flatten_cons] at hJ
    rw [runChunks]
    by_cases hJT : J = T
    · subst hJT
      have hcnil : c ++ cs'.flatten = [] := by
        have h0 : J ++ (c ++ cs'.flatten) = J ++ [] := by simpa using hJ
        exact List.append_cancel_left h0
      have hc : c = [] := (List.append_eq_nil.mp hcnil).1
      have hrest : cs'.flatten = [] := (List.append_eq_nil.mp hcnil).2
      have hstep : processChunk ⟨J, [pc], J.length⟩ c = ⟨J, [pc], J.length⟩ := by
        subst hc
        unfold processChunk
        simp [List.drop_length, extractAllF_nil, extractCompleted]
      rw [if_pos rfl, if_pos rfl, hstep]
      have := ih J (by simp [hrest])
      simpa using this
    · rw [if_neg hJT, if_neg hJT]
      by_cases hJcT : J ++ c = T
      · have hstep : processChunk ⟨J, [], 0⟩ c = ⟨T, [pc], T.length⟩ := by
          unfold processChunk
          simp only [List.nil_append, List.drop_zero, hJcT, hT]
          simp
        rw [hstep]
        have hrest : cs'.flatten = [] := by
          rw [← hJcT] at hJ
          simpa using hJ
        have := ih T (by simp [hrest, ← hJcT])
        simp only [if_pos rfl] at this
        simpa [← hJcT] using this
      · have hproper : hasSub chCloseT (J ++ c) = false := by
          refine no_close_of_proper hclose (E := cs'.flatten) ?_ ?_
          · rw [List.append_assoc]; exact hJ
          · intro hnil
            rw [hnil, List.append_nil] at hJ
            exact hJcT hJ
        have hstep : processChunk ⟨J, [], 0⟩ c = ⟨J ++ c, [], 0⟩ := by
          unfold processChunk
          simp [extractCompleted_no_close hproper]
        rw [hstep]
        have := ih (J ++ c) (by rw [List.append_assoc]; exact hJ)
        simpa [if_neg hJcT] using this

theorem runChunks_trail (T : List Char) (pc : ParsedChange) :
    ∀ (cs : List (List Char)) (K : List Char),
      hasSub chCloseT (K ++ cs.flatten) = false →
      runChunks ⟨T ++ K, [pc], T.length⟩ cs = ⟨T ++ (K ++ cs.flatten), [pc], T.length⟩ := by
  intro cs
  induction cs with
  | nil =>
    intro K h
    simp [runChunks]
  | cons c cs' ih =>
    intro K h
    rw [runChunks]
    have hKc : hasSub chCloseT (K ++ c) = false := by
      cases hq : hasSub chCloseT (K ++ c) with
      | false => rfl
      | true =>
        have hx := hasSub_append_of cs'.flatten hq
        rw [List.append_assoc] at hx
        rw [List.flatten_cons] at h
        rw [h] at hx
        exact absurd hx (by simp)
    have hstep : processChunk ⟨T ++ K, [pc], T.length⟩ c = ⟨T ++ (K ++ c), [pc], T.length⟩ := by
      simp only [processChunk]
      rw [List.append_assoc, List.drop_left]
      simp [extractCompleted_no_close hKc]
    rw [hstep]
    have hrec := ih (K ++ c) (by
      rw [List.flatten_cons, ← List.append_assoc] at h
      exact h)
    rw [hrec]
    simp [List.flatten_cons, List.append_assoc]

/-- Claim C7: for every complete directive text (payloads free of the CDATA
terminator, whitespace between the tags, and no premature closing tag
before the final one) and every partition of it into arbitrarily many
chunks, feeding the chunks through successive processChunk calls yields
the same ParsedChange, with the caret sentinel stripped, as feeding the
whole text in a single processChunk call. -/
theorem c7_chunk_split_invariance
    (s r w1 w2 w3 w4 w5 w6 w7 : List Char) (chunks : List (List Char))
    (hs : hasSub cdClose s = false) (hr : hasSub cdClose r = false)
    (h1 : allWs w1 = true) (h2 : allWs w2 = true) (h3 : allWs w3 = true)
    (h4 : allWs w4 = true) (h5 : allWs w5 = true) (h6 : allWs w6 = true)
    (h7 : allWs w7 = true)
    (hclose : hasSub chCloseT (dirText s r w1 w2 w3 w4 w5 w6 w7).dropLast = false)
    (hjoin : chunks.flatten = dirText s r w1 w2 w3 w4 w5 w6 w7) :
    (runChunks initState chunks).completedChanges
        = (processChunk initState (dirText s r w1 w2 w3 w4 w5 w6 w7)).completedChanges
      ∧ (runChunks initState chunks).completedChanges = [⟨stripC s, stripC r⟩] := by
  have hT := extractCompleted_dir hs hr h1 h2 h3 h4 h5 h6 h7
  have hne := dirText_ne_nil s r w1 w2 w3 w4 w5 w6 w7
  have hrun := runChunks_inv hT hclose chunks [] (by simpa using hjoin)
  have hinit :
      (⟨[], if ([] : List Char) = dirText s r w1 w2 w3 w4 w5 w6 w7 then
          [(⟨stripC s, stripC r⟩ : ParsedChange)] else [],
        if ([] : List Char) = dirText s r w1 w2 w3 w4 w5 w6 w7 then
          (dirText s r w1 w2 w3 w4 w5 w6 w7).length else 0⟩ : ParserState) = initState := by
    rw [if_neg (Ne.symm hne), if_neg (Ne.symm hne)]
    rfl
  rw [hinit] at hrun
  have hsingle : processChunk initState (dirText s r w1 w2 w3 w4 w5 w6 w7)
      = ⟨dirText s r w1 w2 w3 w4 w5 w6 w7, [⟨stripC s, stripC r⟩],
          (dirText s r w1 w2 w3 w4 w5 w6 w7).length⟩ := by
    simp only [processChunk, initState]
    simp [hT]
  rw [hrun, hsingle]
  exact ⟨rfl, rfl⟩

/-- The demonstration directive used by the concrete instantiations: the
block <change><search><![CDATA[a]]></search><replace><![CDATA[b]]></replace></change>. -/
def demoT : List Char := dirText ['a'] ['b'] [] [] [] [] [] [] []

/-- The first thirty characters of the demonstration directive. -/
def demoChunk1 : List Char := demoT.take 30

/-- The remainder of the demonstration directive. -/
def demoChunk2 : List Char := demoT.drop 30

theorem c7_chunk_split_invariance_witness :
    (runChunks initState [demoChunk1, demoChunk2]).completedChanges
        = (processChunk initState (dirText ['a'] ['b'] [] [] [] [] [] [] [])).completedChanges
      ∧ (runChunks initState [demoChunk1, demoChunk2]).completedChanges
        = [⟨stripC ['a'], stripC ['b']⟩] :=
  c7_chunk_split_invariance ['a'] ['b'] [] [] [] [] [] [] [] [demoChunk1, demoChunk2]
    (by decide) (by decide) (by decide) (by decide) (by decide) (by decide) (by decide)
    (by decide) (by decide) (by decide) (by decide)

/-- Claim C8: a directive block fully matched in an earlier call is never
re-scanned or emitted a second time: after extraction the processed-offset
cursor sits at the end of the block, later chunks of unrelated trailing
text (text containing no closing change tag) are scanned only after that
cursor, exactly one copy of the ParsedChange remains in the
completed-changes list, and the cursor never moves back. -/
theorem c8_no_rescan_no_duplicate
    (s r w1 w2 w3 w4 w5 w6 w7 : List Char) (trail : List (List Char))
    (hs : hasSub cdClose s = false) (hr : hasSub cdClose r = false)
    (h1 : allWs w1 = true) (h2 : allWs w2 = true) (h3 : allWs w3 = true)
    (h4 : allWs w4 = true) (h5 : allWs w5 = true) (h6 : allWs w6 = true)
    (h7 : allWs w7 = true)
    (htrail : hasSub chCloseT trail.flatten = false) :
    (runChunks initState (dirText s r w1 w2 w3 w4 w5 w6 w7 :: trail)).completedChanges
        = [⟨stripC s, stripC r⟩]
      ∧ (runChunks initState (dirText s r w1 w2 w3 w4 w5 w6 w7 :: trail)).lastProcessedIndex
        = (dirText s r w1 w2 w3 w4 w5 w6 w7).length
      ∧ (runChunks initState (dirText s r w1 w2 w3 w4 w5 w6 w7 :: trail)).buffer
        = dirText s r w1 w2 w3 w4 w5 w6 w7 ++ trail.flatten := by
  have hT := extractCompleted_dir hs hr h1 h2 h3 h4 h5 h6 h7
  have hsingle : processChunk initState (dirText s r w1 w2 w3 w4 w5 w6 w7)
      = ⟨dirText s r w1 w2 w3 w4 w5 w6 w7 ++ [], [⟨stripC s, stripC r⟩],
          (dirText s r w1 w2 w3 w4 w5 w6 w7).length⟩ := by
    simp only [processChunk, initState]
    simp [hT]
  have htr := runChunks_trail (dirText s r w1 w2 w3 w4 w5 w6 w7) ⟨stripC s, stripC r⟩
    trail [] (by simpa using htrail)
  rw [runChunks, hsingle, htr]
  simp

theorem c8_no_rescan_no_duplicate_witness :
    (runChunks initState
        (dirText ['a'] ['b'] [] [] [] [] [] [] [] :: [['j'], ['u', 'n', 'k']])).completedChanges
        = [⟨stripC ['a'], stripC ['b']⟩]
      ∧ (runChunks initState
          (dirText ['a'] ['b'] [] [] [] [] [] [] [] :: [['j'], ['u', 'n', 'k']])).lastProcessedIndex
        = (dirText ['a'] ['b'] [] [] [] [] [] [] []).length
      ∧ (runChunks initState
          (dirText ['a'] ['b'] [] [] [] [] [] [] [] :: [['j'], ['u', 'n', 'k']])).buffer
        = dirText ['a'] ['b'] [] [] [] [] [] [] [] ++ [['j'], ['u', 'n', 'k']].flatten :=
  c8_no_rescan_no_duplicate ['a'] ['b'] [] [] [] [] [] [] [] [['j'], ['u', 'n', 'k']]
    (by decide) (by decide) (by decide) (by decide) (by decide) (by decide) (by decide)
    (by decide) (by decide) (by decide)

/-- The demonstration directive truncated just before the closing bracket of
its final tag, so that it ends in the characters </change. -/
def demoTrunc : List Char := demoT.dropLast

/-- The demonstration directive truncated after its closed replace tag, so
that it ends with </replace> and contains no closing change tag at all. -/
def demoTruncNoClose : List Char := demoT.take (demoT.length - 9)

/-- Claim C1: modelled from the spec, since finishStream and its sanitizer
are absent from the repository's source files.  On the explicit
end-of-stream signal with exactly one open top-level block, the engine
repairs a buffer ending in </change by appending the missing bracket and
re-runs extraction once: the truncated demonstration buffer yields no
completed change and reports not-complete before finishStream, and yields
exactly one completed change after it; when the number of open blocks is
not exactly one, finishStream changes nothing. -/
theorem c1_finalizer_conservative_repair :
    (processChunk initState demoTrunc).completedChanges = []
      ∧ isResponseComplete (processChunk initState demoTrunc).buffer
          (processChunk initState demoTrunc).completedChanges = false
      ∧ (finishStream (processChunk initState demoTrunc)).completedChanges
          = [⟨['a'], ['b']⟩]
      ∧ (finishStream (processChunk initState demoTrunc)).buffer = demoT
      ∧ (processChunk initState demoTruncNoClose).completedChanges = []
      ∧ (finishStream (processChunk initState demoTruncNoClose)).completedChanges
          = [⟨['a'], ['b']⟩]
      ∧ (finishStream (processChunk initState demoTruncNoClose)).buffer = demoT
      ∧ ∀ st : ParserState, openBlocks st.buffer ≠ 1 → finishStream st = st := by
  refine ⟨by decide, by decide, by decide, by decide, by decide, by decide, by decide, ?_⟩
  intro st h
  unfold finishStream
  rw [if_neg h]

/-- Two accepted changes whose half-open ranges intersect. -/
def rangesOverlap (a b : AppliedChange) : Prop :=
  a.startIndex < b.endIndex ∧ b.startIndex < a.endIndex

theorem acceptChange_pairwise {content : List Char} {acc : List AppliedChange}
    (h : acc.Pairwise fun a b => ¬ rangesOverlap a b) (ch : ParsedChange) :
    (acceptChange content acc ch).Pairwise fun a b => ¬ rangesOverlap a b := by
  unfold acceptChange
  cases hm : findBestMatch content ch.search with
  | none => exact h
  | some i =>
    dsimp only
    by_cases hov : acc.any (overlapsB i (i + ch.search.length)) = true
    · rw [if_pos hov]
      exact h
    · rw [if_neg hov]
      rw [List.pairwise_append]
      refine ⟨h, List.pairwise_singleton _ _, ?_⟩
      intro a ha b hb
      have hb' : b = ⟨ch.search, adjustReplace ch.search ch.replace content
          (i + ch.search.length), i, i + ch.search.length⟩ := by simpa using hb
      subst hb'
      have hfa : overlapsB i (i + ch.search.length) a = false := by
        cases hq : overlapsB i (i + ch.search.length) a with
        | false => rfl
        | true => exact absurd (List.any_eq_true.mpr ⟨a, ha, hq⟩) hov
      have hfa' : ¬ (i < a.endIndex ∧ a.startIndex < i + ch.search.length) := by
        intro hq
        rw [overlapsB] at hfa
        simp [hq.1, hq.2] at hfa
      intro hcon
      exact hfa' ⟨hcon.2, hcon.1⟩

theorem buildApplied_pairwise (content : List Char) (changes : List ParsedChange) :
    (buildApplied content changes).Pairwise fun a b => ¬ rangesOverlap a b := by
  unfold buildApplied
  have hgen : ∀ acc : List AppliedChange, (acc.Pairwise fun a b => ¬ rangesOverlap a b) →
      (changes.foldl (acceptChange content) acc).Pairwise fun a b => ¬ rangesOverlap a b := by
    induction changes with
    | nil => intro acc h; exact h
    | cons ch rest ih =>
      intro acc h
      exact ih _ (acceptChange_pairwise h ch)
  exact hgen [] List.Pairwise.nil

/-- Claim C3: in every application pass, no two accepted MatchedChange
ranges overlap: each resolved match is tested against all matches already
accepted and dropped when it overlaps one of them; concretely, of the two
directives ab-to-X and b-to-Y over the document ab, whose resolved ranges
intersect, only the first-discovered one is accepted. -/
theorem c3_accepted_ranges_never_overlap :
    (∀ (content : List Char) (changes : List ParsedChange),
        (buildApplied content changes).Pairwise fun a b => ¬ rangesOverlap a b)
    ∧ buildApplied ['a', 'b'] [⟨['a', 'b'], ['X']⟩, ⟨['b'], ['Y']⟩]
        = [⟨['a', 'b'], ['X'], 0, 2⟩] :=
  ⟨buildApplied_pairwise, by decide⟩

theorem acceptChange_end_eq {content : List Char} {acc : List AppliedChange} {ch : ParsedChange}
    (h : ∀ x ∈ acc, x.endIndex = x.startIndex + x.searchContent.length) :
    ∀ a ∈ acceptChange content acc ch, a.endIndex = a.startIndex + a.searchContent.length := by
  intro a ha
  unfold acceptChange at ha
  cases hm : findBestMatch content ch.search with
  | none =>
    rw [hm] at ha
    exact h a ha
  | some i =>
    rw [hm] at ha
    dsimp only at ha
    by_cases hov : acc.any (overlapsB i (i + ch.search.length)) = true
    · rw [if_pos hov] at ha
      exact h a ha
    · rw [if_neg hov] at ha
      rcases List.mem_append.mp ha with h1 | h1
      · exact h a h1
      · have heq : a = ⟨ch.search, adjustReplace ch.search ch.replace content
            (i + ch.search.length), i, i + ch.search.length⟩ := by simpa using h1
        subst heq
        rfl

theorem buildApplied_end_eq (content : List Char) (changes : List ParsedChange) :
    ∀ a ∈ buildApplied content changes,
      a.endIndex = a.startIndex + a.searchContent.length := by
  unfold buildApplied
  have hgen : ∀ (cs : List ParsedChange) (acc : List AppliedChange),
      (∀ x ∈ acc, x.endIndex = x.startIndex + x.searchContent.length) →
      ∀ a ∈ cs.foldl (acceptChange content) acc,
        a.endIndex = a.startIndex + a.searchContent.length := by
    intro cs
    induction cs with
    | nil =>
      intro acc h
      simpa using h
    | cons ch rest ih =>
      intro acc h
      exact ih _ (acceptChange_end_eq h)
  exact hgen changes [] (by simp)

/-- Claim C9: every accepted match removes exactly the half-open region
from its start offset to start offset plus the length of the search
payload: the recorded endIndex always equals startIndex plus the search
length, the splice replaces exactly that region, and this holds even for a
whitespace-normalized match whose original-document region has a different
length, as the tab-versus-spaces instance shows (a three-character document
gets a six-character region spliced out). -/
theorem c9_splice_removes_search_length :
    (∀ (content : List Char) (changes : List ParsedChange) (a : AppliedChange),
        a ∈ buildApplied content changes →
          a.endIndex = a.startIndex + a.searchContent.length)
    ∧ (∀ (text : List Char) (a : AppliedChange),
        spliceOne text a = text.take a.startIndex ++ a.replaceContent ++ text.drop a.endIndex)
    ∧ buildApplied ['a', '\t', 'b'] [⟨['a', ' ', ' ', ' ', ' ', 'b'], ['R']⟩]
        = [⟨['a', ' ', ' ', ' ', ' ', 'b'], ['R'], 0, 6⟩]
    ∧ applyAll ['a', '\t', 'b'] [⟨['a', ' ', ' ', ' ', ' ', 'b'], ['R'], 0, 6⟩] = ['R'] :=
  ⟨fun content changes a ha => buildApplied_end_eq content changes a ha,
   fun _ _ => rfl, by decide, by decide⟩

/-- Claim C10: the matcher returns not-found for an empty search pattern,
and likewise for an empty document, although the empty string is a
substring of every text; consequently a directive whose stripped search
payload is empty is dropped by the acceptance loop and never produces an
edit, and a search payload consisting only of the caret sentinel strips to
the empty payload. -/
theorem c10_empty_search_never_matches :
    (∀ content : List Char, findBestMatch content [] = none)
    ∧ (∀ pat : List Char, findBestMatch [] pat = none)
    ∧ (∀ (content : List Char) (acc : List AppliedChange) (rep : List Char),
        acceptChange content acc ⟨[], rep⟩ = acc)
    ∧ stripC cursorMarker = [] := by
  have hfb : ∀ content : List Char, findBestMatch content [] = none := by
    intro c
    unfold findBestMatch
    rw [if_pos (by simp)]
  refine ⟨hfb, ?_, ?_, by decide⟩
  · intro p
    unfold findBestMatch
    rw [if_pos (by simp)]
  · intro c acc rep
    unfold acceptChange
    dsimp only
    rw [hfb c]

theorem isPre_replicate_count (k : Nat) (ys : List Char) :
    isPre (List.replicate k '\n') ys = true ↔ k ≤ countLeadingNl ys := by
  induction k generalizing ys with
  | zero => simp [isPre]
  | succ k ih =>
    cases ys with
    | nil => simp [List.replicate_succ, isPre, countLeadingNl]
    | cons y ys' =>
      rw [List.replicate_succ]
      by_cases hy : y = '\n'
      · subst hy
        simp [isPre, countLeadingNl, ih, Nat.succ_le_succ_iff]
      · simp [isPre, countLeadingNl, Ne.symm hy, hy]

theorem endsWith_replicate_nl (k : Nat) (xs : List Char) :
    endsWithL (List.replicate k '\n') xs = true ↔ k ≤ trailNlCount xs := by
  unfold endsWithL trailNlCount
  rw [List.reverse_replicate]
  exact isPre_replicate_count k xs.reverse

/-- Claim C5 (amended): for an accepted match whose search payload ends with
a line break and is followed by k greater than zero consecutive line breaks
in the document, the adjusted replace payload equals the original exactly
when the original already ends with at least k plus one trailing line
breaks, and otherwise equals the original with all trailing whitespace
removed and k plus one line breaks appended; when the search payload does
not end with a line break, or k is zero, the replace payload is unchanged. -/
theorem c5_trailing_newline_adjustment (search rep content : List Char) (endIdx : Nat) :
    (endsWithL ['\n'] search = false → adjustReplace search rep content endIdx = rep)
    ∧ (nlRun content endIdx = 0 → adjustReplace search rep content endIdx = rep)
    ∧ (endsWithL ['\n'] search = true → 0 < nlRun content endIdx →
        nlRun content endIdx + 1 ≤ trailNlCount rep →
        adjustReplace search rep content endIdx = rep)
    ∧ (endsWithL ['\n'] search = true → 0 < nlRun content endIdx →
        trailNlCount rep < nlRun content endIdx + 1 →
        adjustReplace search rep content endIdx
          = trimEndJs rep ++ List.replicate (nlRun content endIdx + 1) '\n') := by
  unfold adjustReplace
  refine ⟨?_, ?_, ?_, ?_⟩
  · intro h
    rw [if_neg (by simp [h])]
  · intro h
    by_cases he : endsWithL ['\n'] search = true
    · rw [if_pos he]
      dsimp only
      rw [h]
      simp
    · rw [if_neg he]
  · intro he hk hge
    rw [if_pos he]
    dsimp only
    rw [if_pos hk]
    have hend : endsWithL ('\n' :: List.replicate (nlRun content endIdx) '\n') rep = true := by
      rw [← List.replicate_succ]
      exact (endsWith_replicate_nl _ rep).mpr hge
    rw [if_pos hend]
  · intro he hk hlt
    rw [if_pos he]
    dsimp only
    rw [if_pos hk]
    have hend : ¬ endsWithL ('\n' :: List.replicate (nlRun content endIdx) '\n') rep = true := by
      rw [← List.replicate_succ]
      intro hq
      exact absurd ((endsWith_replicate_nl _ rep).mp hq) (by omega)
    rw [if_neg hend, ← List.replicate_succ]

/-- The trailing-newline adjustment exactly as claim C5 words it: keep the
replace payload when it already ends with at least the k observed line
breaks, otherwise append exactly those k line breaks to it unchanged. -/
def adjustReplaceClaim (search rep content : List Char) (endIndex : Nat) : List Char :=
  if endsWithL ['\n'] search then
    let k := nlRun content endIndex
    if 0 < k then
      if k ≤ trailNlCount rep then rep else rep ++ List.replicate k '\n'
    else rep
  else rep

theorem c5_trailing_newline_counterexample :
    adjustReplace ['x', '\n'] ['a', '\n'] ['x', '\n', '\n', 'y'] 2 = ['a', '\n', '\n']
    ∧ adjustReplaceClaim ['x', '\n'] ['a', '\n'] ['x', '\n', '\n', 'y'] 2 = ['a', '\n']
    ∧ adjustReplace ['x', '\n'] ['a', '\n'] ['x', '\n', '\n', 'y'] 2
        ≠ adjustReplaceClaim ['x', '\n'] ['a', '\n'] ['x', '\n', '\n', 'y'] 2 := by
  refine ⟨by decide, by decide, by decide⟩

/-- Claim C6: the completion detector reports not-complete whenever a
dangling open change, search or replace tag or an unterminated CDATA
section remains in the trimmed buffer; it reports complete on an empty
trimmed buffer; and otherwise it reports complete exactly when at least
one directive has been completed and none of the dangling conditions
hold. -/
theorem c6_completion_detector (buffer : List Char) (completed : List ParsedChange) :
    isResponseComplete buffer completed = completeSpec buffer completed := by
  unfold isResponseComplete completeSpec
  dsimp only
  by_cases hd : danglingAny (trimJs buffer) = true
  · rw [if_pos hd, hd]
    simp
  · have hd' : danglingAny (trimJs buffer) = false := by
      cases h : danglingAny (trimJs buffer)
      · rfl
      · exact absurd h hd
    rw [if_neg hd, hd']
    simp only [Bool.not_false, Bool.true_and]
    cases ht : trimJs buffer with
    | nil => simp
    | cons x xs =>
      simp only [List.length_cons, List.isEmpty_cons, Bool.false_or]
      rw [if_neg (by simp)]
      cases completed <;> simp

/-- Claim C4 (amended): for every nonempty document text and nonempty
search payload, the matcher equals the four-strategy cascade, first
success winning, and returns not-found exactly when all four strategies
fail; the nonemptiness hypotheses are forced by the input guard, which
returns not-found on an empty payload even though the exact-substring
strategy succeeds there. -/
theorem c4_matcher_cascade (content pat : List Char) (hc : content ≠ []) (hp : pat ≠ []) :
    findBestMatch content pat = matchCascade content pat
    ∧ (findBestMatch content pat = none ↔
        strategyExact content pat = none ∧ strategyTrailNl content pat = none
        ∧ strategyNorm content pat = none ∧ strategyTrim content pat = none) := by
  have hcond : ¬ ((content = [] || pat = []) = true) := by simp [hc, hp]
  have hmain : findBestMatch content pat = matchCascade content pat := by
    unfold findBestMatch matchCascade
    rw [if_neg hcond]
    cases h1 : strategyExact content pat with
    | some i => simp [Option.orElse]
    | none =>
      cases h2 : strategyTrailNl content pat with
      | some i => simp [Option.orElse]
      | none =>
        cases h3 : strategyNorm content pat with
        | some i => simp [Option.orElse]
        | none =>
          dsimp only
          simp only [Option.orElse, Option.none_orElse]
          by_cases ht : trimJs pat = pat
          · rw [if_neg (by simp [ht])]
            unfold strategyTrim
            rw [ht]
            unfold strategyExact at h1
            exact h1.symm
          · rw [if_pos (by simp [ht])]
            rfl
  refine ⟨hmain, ?_⟩
  rw [hmain]
  unfold matchCascade
  cases h1 : strategyExact content pat with
  | some i => simp [Option.orElse]
  | none =>
    cases h2 : strategyTrailNl content pat with
    | some i => simp [Option.orElse]
    | none =>
      cases h3 : strategyNorm content pat with
      | some i => simp [Option.orElse]
      | none => simp [Option.orElse]

theorem c4_matcher_cascade_witness :
    ((['a', 'b'] : List Char) ≠ [] ∧ (['b'] : List Char) ≠ [])
    ∧ (findBestMatch ['a', 'b'] ['b'] = matchCascade ['a', 'b'] ['b']
      ∧ (findBestMatch ['a', 'b'] ['b'] = none ↔
          strategyExact ['a', 'b'] ['b'] = none ∧ strategyTrailNl ['a', 'b'] ['b'] = none
          ∧ strategyNorm ['a', 'b'] ['b'] = none ∧ strategyTrim ['a', 'b'] ['b'] = none)) :=
  ⟨⟨by decide, by decide⟩, c4_matcher_cascade ['a', 'b'] ['b'] (by decide) (by decide)⟩

theorem c4_matcher_cascade_counterexample :
    findBestMatch ['a'] [] = none ∧ strategyExact ['a'] [] = some 0 := by
  refine ⟨by decide, by decide⟩

theorem isMinusL_eq_false_of_plus {l : List Char} (h : isPlusL l = true) :
    isMinusL l = false := by
  cases l with
  | nil => simp [isPlusL] at h
  | cons c cs =>
    simp only [isPlusL, decide_eq_true_eq] at h
    subst h
    simp [isMinusL]


theorem translateLines_counts : ∀ (ls : List (List Char)) (o n : Nat),
    (translateLines o n ls).1 = o + ls.countP (fun l => !isPlusL l)
    ∧ (translateLines o n ls).2.1 = n + ls.countP (fun l => !isMinusL l)
    ∧ (translateLines o n ls).2.2.length = ls.countP (fun l => isPlusL l || isMinusL l) := by
  intro ls
  induction ls with
  | nil =>
    intro o n
    simp [translateLines]
  | cons l ls ih =>
    intro o n
    cases hP : isPlusL l with
    | true =>
      have hM : isMinusL l = false := isMinusL_eq_false_of_plus hP
      have h0 : translateLines o n (l :: ls)
          = ((translateLines o (n + 1) ls).1, (translateLines o (n + 1) ls).2.1,
             (⟨OpType.plus, n - 1, o - 1, n - 1, restL l⟩ : GhostOp) ::
               (translateLines o (n + 1) ls).2.2) := by
        simp only [translateLines]
        rw [if_pos hP]
      obtain ⟨ha, hb, hc⟩ := ih o (n + 1)
      rw [h0]
      refine ⟨?_, ?_, ?_⟩ <;> dsimp only
      · rw [ha, List.countP_cons]
        simp [hP]
      · rw [hb, List.countP_cons]
        simp only [hM, Bool.not_false, if_pos]
        omega
      · rw [List.length_cons, hc, List.countP_cons]
        simp [hP]
    | false =>
      cases hM : isMinusL l with
      | true =>
        have h0 : translateLines o n (l :: ls)
            = ((translateLines (o + 1) n ls).1, (translateLines (o + 1) n ls).2.1,
               (⟨OpType.minus, o - 1, o - 1, n - 1, restL l⟩ : GhostOp) ::
                 (translateLines (o + 1) n ls).2.2) := by
          simp only [translateLines]
          rw [if_neg (by simp [hP]), if_pos hM]
        obtain ⟨ha, hb, hc⟩ := ih (o + 1) n
        rw [h0]
        refine ⟨?_, ?_, ?_⟩ <;> dsimp only
        · rw [ha, List.countP_cons]
          simp only [hP, Bool.not_false, if_pos]
          omega
        · rw [hb, List.countP_cons]
          simp [hM]
        · rw [List.length_cons, hc, List.countP_cons]
          simp [hM]
      | false =>
        have h0 : translateLines o n (l :: ls) = translateLines (o + 1) (n + 1) ls := by
          simp only [translateLines]
          rw [if_neg (by simp [hP]), if_neg (by simp [hM])]
        obtain ⟨ha, hb, hc⟩ := ih (o + 1) (n + 1)
        rw [h0]
        refine ⟨?_, ?_, ?_⟩
        · rw [ha, List.countP_cons]
          simp only [hP, Bool.not_false, if_pos]
          omega
        · rw [hb, List.countP_cons]
          simp only [hM, Bool.not_false, if_pos]
          omega
        · rw [hc, List.countP_cons]
          simp [hP, hM]

/-- The document of the specification's diff scenario. -/
def scenDoc : List Char := "function test() \x7b\n\treturn true;\n\x7d".toList

/-- The replacement text of the scenario: the same document with one
comment line inserted before the return. -/
def scenNew : List Char := "function test() \x7b\n\t// comment\n\treturn true;\n\x7d".toList

/-- The single operation the engine emits for the scenario. -/
def scenOp : GhostOp := ⟨OpType.plus, 1, 1, 1, "\t// comment".toList⟩

/-- Claim C2 (amended): in the diff translation loop, add lines emit one
operation carrying the current newLine counter and advance only it,
remove lines emit one operation carrying the current oldLine counter and
advance only it, and context lines emit no operation while advancing both
counters; consequently the final counters advance by the per-kind line
counts and the number of emitted operations equals the number of add and
remove lines; in the specification's scenario the resulting suggestion
set holds exactly the single add operation for the comment line and no
operations for the unchanged lines. -/
theorem c2_diff_translation_loop :
    (∀ (o n : Nat) (l : List Char) (ls : List (List Char)), isPlusL l = true →
        translateLines o n (l :: ls)
          = ((translateLines o (n + 1) ls).1, (translateLines o (n + 1) ls).2.1,
             (⟨OpType.plus, n - 1, o - 1, n - 1, restL l⟩ : GhostOp) ::
               (translateLines o (n + 1) ls).2.2))
    ∧ (∀ (o n : Nat) (l : List Char) (ls : List (List Char)),
        isPlusL l = false → isMinusL l = true →
        translateLines o n (l :: ls)
          = ((translateLines (o + 1) n ls).1, (translateLines (o + 1) n ls).2.1,
             (⟨OpType.minus, o - 1, o - 1, n - 1, restL l⟩ : GhostOp) ::
               (translateLines (o + 1) n ls).2.2))
    ∧ (∀ (o n : Nat) (l : List Char) (ls : List (List Char)),
        isPlusL l = false → isMinusL l = false →
        translateLines o n (l :: ls) = translateLines (o + 1) (n + 1) ls)
    ∧ (∀ (o n : Nat) (ls : List (List Char)),
        (translateLines o n ls).1 = o + ls.countP (fun l => !isPlusL l)
        ∧ (translateLines o n ls).2.1 = n + ls.countP (fun l => !isMinusL l)
        ∧ (translateLines o n ls).2.2.length = ls.countP (fun l => isPlusL l || isMinusL l))
    ∧ ghostOps scenDoc [⟨scenDoc, scenNew⟩] = [scenOp] := by
  refine ⟨?_, ?_, ?_, fun o n ls => translateLines_counts ls o n, by decide⟩
  · intro o n l ls hP
    simp only [translateLines]
    rw [if_pos hP]
  · intro o n l ls hP hM
    simp only [translateLines]
    rw [if_neg (by simp [hP]), if_pos hM]
  · intro o n l ls hP hM
    simp only [translateLines]
    rw [if_neg (by simp [hP]), if_neg (by simp [hM])]

/-- Claim C2 as stated is refuted by the scenario: the document has three
lines, two of which are unchanged after the edit, yet the suggestion set
holds exactly one operation (the add), so no context operations for the
unchanged lines are emitted. -/
theorem c2_diff_translation_counterexample :
    ghostOps scenDoc [⟨scenDoc, scenNew⟩] = [scenOp]
    ∧ (ghostOps scenDoc [⟨scenDoc, scenNew⟩]).length = 1
    ∧ (splitOnNl scenDoc).length = 3 := by
  refine ⟨by decide, by decide, by decide⟩
